import Mathlib

set_option maxRecDepth 8000

/-!
Shallow embedding of the gopakgen resolution pipeline.

Go strings are modelled as `List Char`.  The embedding covers:
* the Go string primitives the program uses (`strings.TrimPrefix`,
  `strings.TrimSuffix`, `strings.CutSuffix`, `strings.Cut`, `strings.Count`),
* the pure library functions of `golang.org/x/mod` the resolver calls
  (`semver.Major`, `semver.IsValid`, `semver.Build`, `module.IsPseudoVersion`,
  `module.PseudoVersionRev`),
* `path/filepath.Join` and its lexical `Clean` (unix separator),
* the resolver `source` and the surrounding `run` pipeline steps
  (version classification, git-option application, output sorting),
* the observable contract of `asyncMap` (util.go), with the concurrent
  completion order abstracted into the order of the input list.
-/

namespace Gopakgen

/-! ### Go string primitives -/

/-- Character class `[0-9]`. -/
def isDigitCh (c : Char) : Bool := 48 ≤ c.toNat && c.toNat ≤ 57

/-- Character class `[A-Za-z0-9]`. -/
def isAlnumCh (c : Char) : Bool :=
  (65 ≤ c.toNat && c.toNat ≤ 90) || (97 ≤ c.toNat && c.toNat ≤ 122) ||
    (48 ≤ c.toNat && c.toNat ≤ 57)

/-- Models `strings.HasPrefix s pre` (second argument is the leading part). -/
def goStartsWith : List Char → List Char → Bool
  | _, [] => true
  | [], _ :: _ => false
  | c :: s, p :: ps => decide (c = p) && goStartsWith s ps

/-- Models `strings.HasSuffix s suf`. -/
def goEndsWith (s suf : List Char) : Bool := goStartsWith s.reverse suf.reverse

/-- Models `strings.TrimPrefix s pre`: drop the leading part when present,
otherwise return `s` unchanged. -/
def goTrimStart (s pre : List Char) : List Char :=
  if goStartsWith s pre then s.drop pre.length else s

/-- Models `strings.TrimSuffix s suf`. -/
def goTrimEnd (s suf : List Char) : List Char :=
  if goEndsWith s suf then s.take (s.length - suf.length) else s

/-- Models `strings.CutSuffix s suf`: the string with the suffix removed and
whether it was present (an empty suffix is always "present", as in Go). -/
def goCutSuffix (s suf : List Char) : List Char × Bool :=
  if goEndsWith s suf then (s.take (s.length - suf.length), true) else (s, false)

/-- Models `strings.Cut s sep` for a one-character separator: the part before
the first occurrence, the part after it, and whether it occurred. -/
def goCutChar (s : List Char) (sep : Char) : List Char × List Char × Bool :=
  match s with
  | [] => ([], [], false)
  | c :: rest =>
    if c = sep then ([], rest, true)
    else
      let r := goCutChar rest sep
      (c :: r.1, r.2.1, r.2.2)

/-- Models `strings.LastIndexByte`: index of the last occurrence, `-1` if absent. -/
def lastIndexChar (s : List Char) (c : Char) : Int :=
  match s with
  | [] => -1
  | a :: rest =>
    let r := lastIndexChar rest c
    if 0 ≤ r then r + 1 else if a = c then 0 else -1

/-- Go slice `s[:i]` (for the in-bounds uses of the program). -/
def goSliceTo (s : List Char) (i : Int) : List Char := s.take i.toNat

/-- Go slice `s[i:]` (for the in-bounds uses of the program). -/
def goSliceFrom (s : List Char) (i : Int) : List Char := s.drop i.toNat

/-- Split a string at every occurrence of a separator character; adjacent
separators produce empty components. -/
def splitOnChar (sep : Char) : List Char → List (List Char)
  | [] => [[]]
  | c :: rest =>
    let r := splitOnChar sep rest
    if c = sep then [] :: r
    else
      match r with
      | [] => [[c]]
      | h :: t => (c :: h) :: t

/-- Go string comparison `s1 < s2` (byte-lexicographic; on the code-point
lists this is code-point-lexicographic, which agrees on UTF-8). -/
def goStringLt : List Char → List Char → Bool
  | _, [] => false
  | [], _ :: _ => true
  | a :: as, b :: bs => if a < b then true else if b < a then false else goStringLt as bs

/-- Models `strings.Count s "-"`: the number of dashes in `s`. -/
def countDash (s : List Char) : Nat := s.countP (fun c => decide (c = '-'))

/-! ### `golang.org/x/mod/semver` -/

namespace semver

/-- Result record of the internal semver `parse` function. -/
structure Parsed where
  major : List Char
  minor : List Char
  patch : List Char
  short : List Char
  prerelease : List Char
  build : List Char
deriving DecidableEq

/-- Internal `parseInt`: a nonempty digit run without a redundant leading
zero, returned with the rest of the string. -/
def parseInt (v : List Char) : Option (List Char × List Char) :=
  if v.isEmpty then none
  else if isDigitCh (v.headD ' ') then
    if v.headD ' ' = '0' && (v.takeWhile isDigitCh).length ≠ 1 then none
    else some (v.takeWhile isDigitCh, v.drop (v.takeWhile isDigitCh).length)
  else none

/-- Character class of semver identifiers: `[0-9A-Za-z-]`. -/
def isIdentCh (c : Char) : Bool := isAlnumCh c || decide (c = '-')

/-- Internal `isBadNum`: an all-digit identifier with a redundant leading zero. -/
def isBadNum (v : List Char) : Bool :=
  v.all isDigitCh && decide (1 < v.length) && decide (v.headD 'x' = '0')

/-- Loop body of the internal `parsePrerelease`: scan up to `'+'` or the end,
checking dot-separated identifier segments; returns the scanned part and the
rest. `seg` is the current segment scanned so far. -/
def preAux : List Char → List Char → Option (List Char × List Char)
  | [], seg => if seg.isEmpty || isBadNum seg then none else some ([], [])
  | c :: rest, seg =>
    if c = '+' then
      if seg.isEmpty || isBadNum seg then none else some ([], c :: rest)
    else if c = '.' then
      if seg.isEmpty || isBadNum seg then none
      else
        match preAux rest [] with
        | none => none
        | some (t, r) => some (c :: t, r)
    else if isIdentCh c then
      match preAux rest (seg ++ [c]) with
      | none => none
      | some (t, r) => some (c :: t, r)
    else none

/-- Internal `parsePrerelease`: `'-'` followed by dot-separated nonempty
identifier segments, none a bad number, up to `'+'` or the end. -/
def parsePrerelease (v : List Char) : Option (List Char × List Char) :=
  if v.isEmpty then none
  else if v.headD ' ' = '-' then
    match preAux v.tail [] with
    | none => none
    | some (t, r) => some ('-' :: t, r)
  else none

/-- Validity check of the loop of the internal `parseBuild`: dot-separated
nonempty identifier segments (bad numbers allowed), running to the end. -/
def buildOk : List Char → List Char → Bool
  | [], seg => !seg.isEmpty
  | c :: rest, seg =>
    if c = '.' then
      if seg.isEmpty then false else buildOk rest []
    else if isIdentCh c then buildOk rest (seg ++ [c])
    else false

/-- Internal `parseBuild`: `'+'` followed by dot-separated nonempty identifier
segments; consumes the whole rest of the string. -/
def parseBuild (v : List Char) : Option (List Char × List Char) :=
  if v.isEmpty then none
  else if v.headD ' ' = '+' then
    if buildOk v.tail [] then some (v, []) else none
  else none

/-- Continuation of the internal semver `parse` after the prerelease part:
the optional build part, then the string must be exhausted. -/
def parseAfterPre (maj mino pat prel : List Char) (v7 : List Char) : Option Parsed :=
  match (if v7.headD ' ' = '+' then parseBuild v7 else some ([], v7)) with
  | none => none
  | some (bld, v8) =>
    if v8.isEmpty then some ⟨maj, mino, pat, [], prel, bld⟩ else none

/-- Continuation of the internal semver `parse` after major, minor and patch:
the optional prerelease part, then the rest. -/
def parseAfterPatch (maj mino pat : List Char) (v6 : List Char) : Option Parsed :=
  match (if v6.headD ' ' = '-' then parsePrerelease v6 else some ([], v6)) with
  | none => none
  | some (prel, v7) => parseAfterPre maj mino pat prel v7

/-- Continuation of the internal semver `parse` after the minor version:
either the string ends (patch defaults to `0`) or `.patch` follows. -/
def parseAfterMinor (maj mino : List Char) (v4 : List Char) : Option Parsed :=
  if v4.isEmpty then some ⟨maj, mino, ['0'], ['.', '0'], [], []⟩
  else if v4.headD ' ' = '.' then
    match parseInt v4.tail with
    | none => none
    | some (pat, v6) => parseAfterPatch maj mino pat v6
  else none

/-- Continuation of the internal semver `parse` after the major version:
either the string ends (minor and patch default to `0`) or `.minor` follows. -/
def parseAfterMajor (maj : List Char) (v2 : List Char) : Option Parsed :=
  if v2.isEmpty then some ⟨maj, ['0'], ['0'], ['.', '0', '.', '0'], [], []⟩
  else if v2.headD ' ' = '.' then
    match parseInt v2.tail with
    | none => none
    | some (mino, v4) => parseAfterMinor maj mino v4
  else none

/-- Internal semver `parse` of `golang.org/x/mod/semver`: a leading `v`, then
the major version and the continuations above. -/
def parse (v : List Char) : Option Parsed :=
  if v.isEmpty then none
  else if v.headD ' ' = 'v' then
    match parseInt v.tail with
    | none => none
    | some (maj, v2) => parseAfterMajor maj v2
  else none

/-- `semver.IsValid`. -/
def IsValid (v : List Char) : Bool := (parse v).isSome

/-- `semver.Major`: the `vN` major-version part, `""` when invalid. -/
def Major (v : List Char) : List Char :=
  match parse v with
  | none => []
  | some p => v.take (1 + p.major.length)

/-- `semver.Build`: the `+...` build suffix, `""` when invalid. -/
def Build (v : List Char) : List Char :=
  match parse v with
  | none => []
  | some p => p.build

end semver

/-! ### `golang.org/x/mod/module` pseudo-versions

The pseudo-version regular expression of the library is
`^v[0-9]+\.(0\.0-|\d+\.\d+-([^+]*\.)?0\.)\d{14}-[A-Za-z0-9]+(\+[0-9A-Za-z-]+(\.[0-9A-Za-z-]+)*)?$`.
It is embedded as a decision procedure below; the only sub-pattern needing
search is the optional `([^+]*\.)?` group, decided by trying every split
point.  The runs `[0-9]+` before `\.`, `\d+` before `\.` or `-`, and
`[A-Za-z0-9]+` before `\+`/end are decided by maximal munch, which is
complete because the follow character is outside the repeated class. -/

namespace modpseudo

/-- Optional build part of the pseudo-version pattern:
`(\+[0-9A-Za-z-]+(\.[0-9A-Za-z-]+)*)?$` — empty, or `'+'` followed by
nonempty dot-separated segments of `[0-9A-Za-z-]`. -/
def matchBuildOpt : List Char → Bool
  | [] => true
  | c :: r =>
    decide (c = '+') &&
      (splitOnChar '.' r).all (fun seg => !seg.isEmpty && seg.all semver.isIdentCh)

/-- Matches `\d{14}-[A-Za-z0-9]+(build)?$`: 14 digits, a dash, a nonempty
alphanumeric revision (decided by maximal munch, complete because neither
`'+'` nor the end can start an alphanumeric run), then the optional build. -/
def matchCore (t : List Char) : Bool :=
  let ts := t.take 14
  let rest := t.drop 14
  decide (ts.length = 14) && ts.all isDigitCh &&
    !rest.isEmpty && decide (rest.headD ' ' = '-') &&
    (let r := rest.tail
     let rev := r.takeWhile isAlnumCh
     !rev.isEmpty && matchBuildOpt (r.drop rev.length))

/-- Matches `([^+]*\.)?0\.` followed by the core: either the group is absent
and the string starts `0.`, or some `'+'`-free prefix ends at a dot before
`0.`; the split point of `[^+]*` is found by search. -/
def matchOptGroup (u : List Char) : Bool :=
  (decide (u.take 2 = ['0', '.']) && matchCore (u.drop 2)) ||
    (List.range u.length).any (fun k =>
      (u.take k).all (fun c => decide (c ≠ '+')) &&
        decide ((u.drop k).headD ' ' = '.') &&
        (let u2 := (u.drop k).tail
         decide (u2.take 2 = ['0', '.']) && matchCore (u2.drop 2)))

/-- Matches the alternative `(0\.0-|\d+\.\d+-([^+]*\.)?0\.)` followed by the
core. -/
def matchMid (t : List Char) : Bool :=
  (decide (t.take 4 = ['0', '.', '0', '-']) && matchCore (t.drop 4)) ||
    (let d1 := t.takeWhile isDigitCh
     let t1 := t.drop d1.length
     !d1.isEmpty && !t1.isEmpty && decide (t1.headD ' ' = '.') &&
       (let t2 := t1.tail
        let d2 := t2.takeWhile isDigitCh
        let t3 := t2.drop d2.length
        !d2.isEmpty && !t3.isEmpty && decide (t3.headD ' ' = '-') &&
          matchOptGroup t3.tail))

/-- Decision procedure for the full pseudo-version regular expression:
`v`, then `[0-9]+\.`, then the alternative and the core. -/
def matchPseudoRE (v : List Char) : Bool :=
  !v.isEmpty && decide (v.headD ' ' = 'v') &&
    (let rest := v.tail
     let ds := rest.takeWhile isDigitCh
     let r2 := rest.drop ds.length
     !ds.isEmpty && !r2.isEmpty && decide (r2.headD ' ' = '.') && matchMid r2.tail)

/-- `module.IsPseudoVersion`: at least two dashes, a valid semver, and a match
of the pseudo-version pattern. -/
def IsPseudoVersion (v : List Char) : Bool :=
  decide (2 ≤ countDash v) && semver.IsValid v && matchPseudoRE v

/-- Result record of the internal `parsePseudoVersion`. -/
structure PseudoParsed where
  base : List Char
  timestamp : List Char
  rev : List Char
  build : List Char
deriving DecidableEq

/-- Internal `parsePseudoVersion` of `golang.org/x/mod/module`: after the
`IsPseudoVersion` guard, trim the semver build suffix, split off the revision
at the last dash, and split base from timestamp at the later of the last dash
and the last dot.  (The Go slice expressions are in bounds whenever the guard
holds, which is the only case in which they are evaluated.) -/
def parsePseudoVersion (v : List Char) : Except (List Char) PseudoParsed :=
  if IsPseudoVersion v then
    let build := semver.Build v
    let v1 := goTrimEnd v build
    let j := lastIndexChar v1 '-'
    let v2 := goSliceTo v1 j
    let rev := goSliceFrom v1 (j + 1)
    let i := lastIndexChar v2 '-'
    let jd := lastIndexChar v2 '.'
    if i < jd then
      .ok ⟨goSliceTo v2 jd, goSliceFrom v2 (jd + 1), rev, build⟩
    else
      .ok ⟨goSliceTo v2 i, goSliceFrom v2 (i + 1), rev, build⟩
  else
    .error ("malformed pseudo-version".toList)

/-- `module.PseudoVersionRev`. -/
def PseudoVersionRev (v : List Char) : Except (List Char) (List Char) :=
  (parsePseudoVersion v).map PseudoParsed.rev

end modpseudo

/-! ### `path/filepath` (unix separator) -/

/-- Lexical path cleaning, modelling `path/filepath.Clean` on unix: empty and
`.` components are dropped, `..` pops a preceding component (outside a leading
`..` run), a rooted path keeps its leading separator and absorbs extra `..`,
and the empty result is `.`. -/
def goClean (p : List Char) : List Char :=
  if p.isEmpty then ['.']
  else
    let rooted := p.headD ' ' = '/'
    let comps := (splitOnChar '/' p).filter (fun c => !c.isEmpty && c ≠ ['.'])
    let stack := comps.foldl
      (fun st c =>
        if c = ['.', '.'] then
          match st with
          | [] => if rooted then [] else [c]
          | t :: ts => if t = ['.', '.'] then c :: st else ts
        else c :: st)
      []
    let body := List.intercalate ['/'] stack.reverse
    let out := (if rooted then ['/'] else []) ++ body
    if out.isEmpty then ['.'] else out

/-- Go `strings.Join` with the `/` separator. -/
def goJoinSep (elems : List (List Char)) : List Char := List.intercalate ['/'] elems

/-- Models `filepath.Join`: skip leading empty elements, then join the
remaining elements (empty ones included) with the separator and clean. -/
def filepathJoin : List (List Char) → List Char
  | [] => []
  | e :: rest => if e.isEmpty then filepathJoin rest else goClean (goJoinSep (e :: rest))

/-! ### The resolver `source` and the `run` pipeline -/

/-- Result of the VCS-root-discovery collaborator `vcs.RepoRootForImportPath`
(external per the specification): VCS command name, canonical repository URL,
and the repository root path. -/
structure RepoRoot where
  vcsCmd : List Char
  repo : List Char
  root : List Char
deriving DecidableEq

/-- The `Source` descriptor struct of the program.  The three boolean flags
default to `false` (the Go zero value of the omitted struct fields). -/
structure Source where
  type : List Char
  url : List Char
  tag : List Char
  commit : List Char
  dest : List Char
  disableFsckObjects : Bool
  disableShallowClone : Bool
  disableSubmodules : Bool
deriving DecidableEq

/-- The `"+incompatible"` marker. -/
def incompatibleMarker : List Char := "+incompatible".toList

/-- The `source` function of the program, with the discovery collaborator's
successful answer `rr` passed in (its failure case merely propagates the
error and is outside every claim but the prefix-mismatch one, which is about
a successful discovery).  Mirrors the Go code line by line: classify the
version into tag/commit, cut the incompatible marker, compute the forced
major suffix, namespace the tag by the subdirectory, and build the
descriptor. -/
def source (path version : List Char) (rr : RepoRoot) : Except (List Char) Source :=
  let tc : Except (List Char) (List Char × List Char) :=
    if modpseudo.IsPseudoVersion version then
      match modpseudo.PseudoVersionRev version with
      | .error e => .error e
      | .ok rev => .ok ([], rev)
    else .ok (version, [])
  match tc with
  | .error e => .error e
  | .ok (tag0, commit) =>
    let cut := goCutSuffix tag0 incompatibleMarker
    let tag1 := cut.1
    let incompatible := cut.2
    let major0 := '/' :: semver.Major version
    let major :=
      if incompatible || decide (major0 = "/v0".toList) || decide (major0 = "/v1".toList)
      then [] else major0
    let tag :=
      if !tag1.isEmpty then
        let subdir := goTrimStart path rr.root
        let subdir := goTrimEnd subdir major
        let subdir := goTrimStart subdir ['/']
        if !subdir.isEmpty then subdir ++ '/' :: tag1 else tag1
      else tag1
    .ok { type := rr.vcsCmd, url := rr.repo, tag := tag, commit := commit,
          dest := filepathJoin ["vendor".toList, rr.root, major],
          disableFsckObjects := false, disableShallowClone := false,
          disableSubmodules := false }

/-- The tag the classification step (lines 93–100) produces before the
incompatible marker is cut: empty for a pseudo-version, the version string
otherwise. -/
def classifiedTag (version : List Char) : List Char :=
  if modpseudo.IsPseudoVersion version then [] else version

/-- The value of the `major` variable of `source`: the `/vN` major suffix,
forced to empty when the incompatible marker was present or the major version
is `v0` or `v1`. -/
def majorVar (version : List Char) : List Char :=
  if (goCutSuffix (classifiedTag version) incompatibleMarker).2 ||
      decide ('/' :: semver.Major version = "/v0".toList) ||
      decide ('/' :: semver.Major version = "/v1".toList)
  then [] else '/' :: semver.Major version

/-- The command-line options of the program. -/
structure Options where
  disableFsckObjects : Bool
  disableShallowClone : Bool
  disableSubmodules : Bool
deriving DecidableEq

/-- The per-record post-processing of `run`: the options are copied into the
descriptor exactly in the `case "git"` arm of the switch. -/
def applyGitOptions (opts : Options) (s : Source) : Source :=
  if s.type = "git".toList then
    { s with disableFsckObjects := opts.disableFsckObjects,
             disableShallowClone := opts.disableShallowClone,
             disableSubmodules := opts.disableSubmodules }
  else s

/-- One resolution task of `run`: resolve the record with `source`, then
apply the git options. -/
def resolveDep (opts : Options) (path version : List Char) (rr : RepoRoot) :
    Except (List Char) Source :=
  match source path version rr with
  | .error e => .error e
  | .ok s => .ok (applyGitOptions opts s)

/-- The root-version step of `run`: cut the argument at `'@'` and consult the
latest-version endpoint (given here as the collaborator `latestOf`) when the
cut found no separator or the version component is the literal `latest`. -/
def resolveRootVersion (latestOf : List Char → Except (List Char) (List Char))
    (base : List Char) : Except (List Char) (List Char × List Char) :=
  let c := goCutChar base '@'
  let path := c.1
  let version := c.2.1
  let ok := c.2.2
  if !ok || decide (version = "latest".toList) then
    match latestOf path with
    | .error e => .error e
    | .ok v => .ok (path, v)
  else .ok (path, version)

/-- Observable contract of `asyncMap` (util.go) at its caller: every record is
resolved and all results are returned, or the whole call fails with the error
of a failing task and `run` returns that error before the output stage.  The
concurrent completion order is abstracted into the order of the input list;
cancellation and task termination are not represented. -/
def asyncMap {T R : Type} (f : T → Except (List Char) R) : List T → Except (List Char) (List R)
  | [] => .ok []
  | v :: vs =>
    match f v with
    | .error e => .error e
    | .ok r =>
      match asyncMap f vs with
      | .error e => .error e
      | .ok rs => .ok (r :: rs)

/-- Insert a descriptor into a list sorted by `dest`, after any descriptor
with an equal `dest` — the comparison discipline of the sort
`slices.SortFunc(out, func(s1, s2 Source) bool { return s1.Dest < s2.Dest })`,
which swaps only when the later element's `dest` is strictly smaller. -/
def insertByDest (x : Source) : List Source → List Source
  | [] => [x]
  | y :: ys => if goStringLt x.dest y.dest then x :: y :: ys else y :: insertByDest x ys

/-- The output-ordering step of `run`: sort the collected descriptors by
`dest`, ties keeping their collection (completion) order. -/
def sortByDest (l : List Source) : List Source :=
  l.foldl (fun acc x => insertByDest x acc) []

/-! ### Helper lemmas about the string primitives -/

theorem goStartsWith_nil_right (s : List Char) : goStartsWith s [] = true := by
  cases s <;> rfl

theorem goStartsWith_nil_left (p : Char) (ps : List Char) :
    goStartsWith [] (p :: ps) = false := rfl

theorem goStartsWith_cons_cons (c p : Char) (s ps : List Char) :
    goStartsWith (c :: s) (p :: ps) = (decide (c = p) && goStartsWith s ps) := rfl

theorem goStartsWith_append (a b : List Char) : goStartsWith (a ++ b) a = true := by
  induction a with
  | nil => simp [goStartsWith_nil_right]
  | cons c cs ih => simp [goStartsWith_cons_cons, ih]

theorem goStartsWith_refl (l : List Char) : goStartsWith l l = true := by
  have := goStartsWith_append l []
  simpa using this

theorem goStartsWith_decomp {s p : List Char} (h : goStartsWith s p = true) :
    s = p ++ s.drop p.length := by
  induction p generalizing s with
  | nil => simp
  | cons c cs ih =>
    cases s with
    | nil => simp [goStartsWith_nil_left] at h
    | cons x xs =>
      simp only [goStartsWith_cons_cons, Bool.and_eq_true, decide_eq_true_eq] at h
      obtain ⟨rfl, h2⟩ := h
      simpa using ih h2

theorem goEndsWith_append (a b : List Char) : goEndsWith (a ++ b) b = true := by
  unfold goEndsWith
  rw [List.reverse_append]
  exact goStartsWith_append _ _

theorem goEndsWith_decomp {s suf : List Char} (h : goEndsWith s suf = true) :
    s = s.take (s.length - suf.length) ++ suf := by
  unfold goEndsWith at h
  have h1 := goStartsWith_decomp h
  have h2 : s = (s.reverse.drop suf.reverse.length).reverse ++ suf := by
    have := congrArg List.reverse h1
    simpa using this
  rw [h2]
  simp [List.length_append, Nat.add_sub_cancel, List.take_left]

theorem goTrimEnd_append (a b : List Char) : goTrimEnd (a ++ b) b = a := by
  unfold goTrimEnd
  rw [goEndsWith_append]
  simp only [if_true, List.length_append, Nat.add_sub_cancel]
  exact List.take_left _ _

theorem goCutSuffix_append (a b : List Char) : goCutSuffix (a ++ b) b = (a, true) := by
  unfold goCutSuffix
  rw [goEndsWith_append]
  simp only [if_true, List.length_append, Nat.add_sub_cancel]
  rw [List.take_left]

theorem goCutSuffix_decomp {s suf : List Char} (h : (goCutSuffix s suf).2 = true) :
    s = (goCutSuffix s suf).1 ++ suf := by
  unfold goCutSuffix at *
  by_cases he : goEndsWith s suf = true
  · simp only [he, if_true]
    exact goEndsWith_decomp he
  · simp [he] at h

theorem goCutSuffix_snd (s suf : List Char) : (goCutSuffix s suf).2 = goEndsWith s suf := by
  unfold goCutSuffix
  by_cases he : goEndsWith s suf = true <;> simp [he]

theorem goCutSuffix_of_not_suffix {s suf : List Char} (h : goEndsWith s suf = false) :
    goCutSuffix s suf = (s, false) := by
  unfold goCutSuffix
  simp [h]

theorem goCutSuffix_nil (suf : List Char) (h : suf ≠ []) :
    goCutSuffix [] suf = ([], false) := by
  unfold goCutSuffix goEndsWith
  cases suf with
  | nil => simp at h
  | cons c cs =>
    obtain ⟨x, xs, hxx⟩ := List.exists_cons_of_ne_nil
      (show (c :: cs).reverse ≠ [] by simp)
    simp only [List.reverse_nil, hxx, goStartsWith_nil_left]
    simp

theorem goTrimStart_of_not_started {s pre : List Char} (h : goStartsWith s pre = false) :
    goTrimStart s pre = s := by
  unfold goTrimStart
  simp [h]

theorem goTrimStart_refl (l : List Char) : goTrimStart l l = [] := by
  unfold goTrimStart
  simp [goStartsWith_refl]

theorem goTrimEnd_nil (suf : List Char) : goTrimEnd [] suf = [] := by
  unfold goTrimEnd
  split <;> simp

theorem goTrimStart_nil (pre : List Char) : goTrimStart [] pre = [] := by
  unfold goTrimStart
  split <;> simp

theorem lastIndexChar_not_mem {s : List Char} {c : Char} (h : c ∉ s) :
    lastIndexChar s c = -1 := by
  induction s with
  | nil => rfl
  | cons a rest ih =>
    unfold lastIndexChar
    have hc : a ≠ c := by rintro rfl; exact h (List.mem_cons_self _ _)
    rw [ih (fun hm => h (List.mem_cons_of_mem _ hm))]
    simp [hc]

theorem lastIndexChar_append {xs ys : List Char} {c : Char} (h : c ∉ ys) :
    lastIndexChar (xs ++ c :: ys) c = (xs.length : Int) := by
  induction xs with
  | nil =>
    unfold lastIndexChar
    rw [List.nil_append]
    show (let r := lastIndexChar ys c;
      if 0 ≤ r then r + 1 else if c = c then 0 else -1) = (0 : Int)
    rw [lastIndexChar_not_mem h]
    norm_num
  | cons x xs ih =>
    unfold lastIndexChar
    rw [List.cons_append]
    show (let r := lastIndexChar (xs ++ c :: ys) c;
      if 0 ≤ r then r + 1 else if x = c then 0 else -1) = _
    rw [ih]
    simp

theorem goSliceFrom_append (xs ys : List Char) (c : Char) :
    goSliceFrom (xs ++ c :: ys) ((xs.length : Int) + 1) = ys := by
  unfold goSliceFrom
  have h1 : ((xs.length : Int) + 1).toNat = xs.length + 1 := by omega
  rw [h1]
  have h2 : xs ++ c :: ys = (xs ++ [c]) ++ ys := by simp
  rw [h2]
  have h3 : xs.length + 1 = (xs ++ [c]).length := by simp
  rw [h3, List.drop_left]

/-! ### Value-level characterization of `source` -/

/-- The revision `parsePseudoVersion` computes (evaluated without the guard). -/
def pseudoRevVal (v : List Char) : List Char :=
  let v1 := goTrimEnd v (semver.Build v)
  goSliceFrom v1 (lastIndexChar v1 '-' + 1)

theorem pseudoRev_ok {v : List Char} (h : modpseudo.IsPseudoVersion v = true) :
    modpseudo.PseudoVersionRev v = .ok (pseudoRevVal v) := by
  unfold modpseudo.PseudoVersionRev modpseudo.parsePseudoVersion pseudoRevVal
  rw [h]
  simp only [if_true]
  split <;> rfl

/-- The commit field `source` emits. -/
def commitVar (version : List Char) : List Char :=
  if modpseudo.IsPseudoVersion version then pseudoRevVal version else []

/-- The tag field `source` emits. -/
def tagVar (path version root : List Char) : List Char :=
  let tag1 := (goCutSuffix (classifiedTag version) incompatibleMarker).1
  if !tag1.isEmpty then
    let subdir := goTrimStart path root
    let subdir := goTrimEnd subdir (majorVar version)
    let subdir := goTrimStart subdir ['/']
    if !subdir.isEmpty then subdir ++ '/' :: tag1 else tag1
  else tag1

theorem source_eq (path version : List Char) (rr : RepoRoot) :
    source path version rr =
      .ok { type := rr.vcsCmd, url := rr.repo,
            tag := tagVar path version rr.root,
            commit := commitVar version,
            dest := filepathJoin ["vendor".toList, rr.root, majorVar version],
            disableFsckObjects := false, disableShallowClone := false,
            disableSubmodules := false } := by
  by_cases hp : modpseudo.IsPseudoVersion version = true
  · unfold source
    rw [hp, pseudoRev_ok hp]
    simp only [if_true]
    unfold tagVar commitVar majorVar classifiedTag
    rw [hp]
    simp only [if_true]
  · rw [Bool.not_eq_true] at hp
    unfold source
    rw [hp]
    simp only [Bool.false_eq_true, if_false]
    unfold tagVar commitVar majorVar classifiedTag
    rw [hp]
    simp only [Bool.false_eq_true, if_false]

/-! ### Claim theorems -/

/-- C2: when the tag is non-empty after classification and
incompatible-marker stripping, the resolver succeeds and the emitted tag is
the stripped tag prefixed by the subdirectory — computed by removing the
rootPath prefix from packagePath, then the major suffix from the end, then a
leading `/` — whenever that subdirectory is non-empty; and when the package
path equals the repository root the emitted tag is the bare stripped tag. -/
theorem source_tag_subdir_namespacing (path version : List Char) (rr : RepoRoot)
    (h : (goCutSuffix (classifiedTag version) incompatibleMarker).1 ≠ []) :
    ∃ s, source path version rr = .ok s ∧
      s.tag =
        (let tag1 := (goCutSuffix (classifiedTag version) incompatibleMarker).1
         let subdir := goTrimStart path rr.root
         let subdir := goTrimEnd subdir (majorVar version)
         let subdir := goTrimStart subdir ['/']
         if !subdir.isEmpty then subdir ++ '/' :: tag1 else tag1) ∧
      (path = rr.root →
        s.tag = (goCutSuffix (classifiedTag version) incompatibleMarker).1) := by
  refine ⟨_, source_eq path version rr, ?_, ?_⟩
  · show tagVar path version rr.root = _
    unfold tagVar
    rw [if_pos (by simpa using h)]
  · intro hroot
    show tagVar path version rr.root = _
    unfold tagVar
    rw [if_pos (by simpa using h), hroot, goTrimStart_refl]
    simp [goTrimEnd_nil, goTrimStart_nil]

/-- Witness for C2 at the monorepo example `example.org/mod/sub@v1.4.0` with
root `example.org/mod`. -/
theorem source_tag_subdir_namespacing_witness :
    (goCutSuffix (classifiedTag "v1.4.0".toList) incompatibleMarker).1 ≠ [] ∧
      ∃ s, source "example.org/mod/sub".toList "v1.4.0".toList
          ⟨"git".toList, "https://example.org/mod".toList, "example.org/mod".toList⟩ = .ok s ∧
        s.tag =
          (let tag1 := (goCutSuffix (classifiedTag "v1.4.0".toList) incompatibleMarker).1
           let subdir := goTrimStart "example.org/mod/sub".toList "example.org/mod".toList
           let subdir := goTrimEnd subdir (majorVar "v1.4.0".toList)
           let subdir := goTrimStart subdir ['/']
           if !subdir.isEmpty then subdir ++ '/' :: tag1 else tag1) ∧
        ("example.org/mod/sub".toList = "example.org/mod".toList →
          s.tag = (goCutSuffix (classifiedTag "v1.4.0".toList) incompatibleMarker).1) :=
  ⟨by decide, source_tag_subdir_namespacing _ _ _ (by decide)⟩

/-- C3: the classification tag decomposes as the stripped tag followed by the
`+incompatible` marker exactly when the marker was present; the major suffix
is forced to empty exactly when the marker was present or the semantic major
version is `v0` or `v1`; and otherwise the suffix `/vN` is applied to `dest`
through the path join. -/
theorem incompatible_strip_and_major_suffix (path version : List Char) (rr : RepoRoot) :
    (classifiedTag version =
        (goCutSuffix (classifiedTag version) incompatibleMarker).1 ++
          (if (goCutSuffix (classifiedTag version) incompatibleMarker).2 then
            incompatibleMarker else []) ∧
      (goCutSuffix (classifiedTag version) incompatibleMarker).2 =
        goEndsWith (classifiedTag version) incompatibleMarker) ∧
    (majorVar version = [] ↔
      ((goCutSuffix (classifiedTag version) incompatibleMarker).2 = true ∨
        semver.Major version = "v0".toList ∨ semver.Major version = "v1".toList)) ∧
    (¬ ((goCutSuffix (classifiedTag version) incompatibleMarker).2 = true ∨
        semver.Major version = "v0".toList ∨ semver.Major version = "v1".toList) →
      ∀ s, source path version rr = .ok s →
        s.dest = filepathJoin ["vendor".toList, rr.root, '/' :: semver.Major version]) := by
  have hv0 : "/v0".toList = '/' :: "v0".toList := rfl
  have hv1 : "/v1".toList = '/' :: "v1".toList := rfl
  have hcond : ((goCutSuffix (classifiedTag version) incompatibleMarker).2 ||
        decide ('/' :: semver.Major version = "/v0".toList) ||
        decide ('/' :: semver.Major version = "/v1".toList)) = true ↔
      ((goCutSuffix (classifiedTag version) incompatibleMarker).2 = true ∨
        semver.Major version = "v0".toList ∨ semver.Major version = "v1".toList) := by
    rw [hv0, hv1]
    simp [Bool.or_eq_true, decide_eq_true_eq, List.cons.injEq, or_assoc]
  refine ⟨⟨?_, goCutSuffix_snd _ _⟩, ?_, ?_⟩
  · by_cases he : goEndsWith (classifiedTag version) incompatibleMarker = true
    · have hs := @goCutSuffix_decomp (classifiedTag version) incompatibleMarker
        (by rw [goCutSuffix_snd]; exact he)
      rw [goCutSuffix_snd, he, if_pos rfl]
      exact hs
    · rw [Bool.not_eq_true] at he
      rw [goCutSuffix_of_not_suffix he]
      simp
  · unfold majorVar
    split
    case isTrue hc => simpa using (hcond.mp hc)
    case isFalse hc =>
      rw [Bool.not_eq_true] at hc
      constructor
      · intro hnil; cases hnil
      · intro hd
        exact absurd (hcond.mpr hd) (by rw [hc]; simp)
  · intro hd s hs
    rw [source_eq] at hs
    cases hs
    show filepathJoin ["vendor".toList, rr.root, majorVar version] = _
    unfold majorVar
    rw [if_neg (fun hc => hd (hcond.mp hc))]

/-- Witness for C3 at `v3.2.1` (marker absent, major `v3`, suffix applied). -/
theorem incompatible_strip_and_major_suffix_witness :
    ¬ (((goCutSuffix (classifiedTag "v3.2.1".toList) incompatibleMarker).2 = true ∨
        semver.Major "v3.2.1".toList = "v0".toList ∨
        semver.Major "v3.2.1".toList = "v1".toList)) ∧
      ∀ s, source "example.org/mod/v3".toList "v3.2.1".toList
          ⟨"git".toList, "https://example.org/mod".toList, "example.org/mod".toList⟩ = .ok s →
        s.dest = filepathJoin ["vendor".toList, "example.org/mod".toList,
          '/' :: semver.Major "v3.2.1".toList] :=
  ⟨by decide,
    (incompatible_strip_and_major_suffix "example.org/mod/v3".toList "v3.2.1".toList
      ⟨"git".toList, "https://example.org/mod".toList, "example.org/mod".toList⟩).2.2
      (by decide)⟩

/-- C4: for every successful resolution the emitted `dest` is the path join
of `vendor`, the discovered root, and the (possibly empty) major suffix; and
the concrete input `("example.org/mod/v3", "v3.2.1")` with discovered root
`example.org/mod` yields tag `v3.2.1` and dest `vendor/example.org/mod/v3`. -/
theorem dest_join_and_example :
    (∀ path version rr s, source path version rr = .ok s →
      s.dest = filepathJoin ["vendor".toList, rr.root, majorVar version]) ∧
    source "example.org/mod/v3".toList "v3.2.1".toList
        ⟨"git".toList, "https://example.org/mod".toList, "example.org/mod".toList⟩ =
      .ok ⟨"git".toList, "https://example.org/mod".toList, "v3.2.1".toList, [],
           "vendor/example.org/mod/v3".toList, false, false, false⟩ := by
  constructor
  · intro path version rr s h
    rw [source_eq] at h
    cases h
    rfl
  · rfl

/-- Witness for C4's universally quantified part, applied at the pseudo-version
input `example.org/mod@v0.0.0-20200101000000-abcdef123456`. -/
theorem dest_join_and_example_witness :
    Source.dest ⟨"git".toList, "https://example.org/mod".toList, [],
        "abcdef123456".toList, "vendor/example.org/mod".toList, false, false, false⟩ =
      filepathJoin ["vendor".toList, "example.org/mod".toList,
        majorVar "v0.0.0-20200101000000-abcdef123456".toList] :=
  dest_join_and_example.1 "example.org/mod".toList
    "v0.0.0-20200101000000-abcdef123456".toList
    ⟨"git".toList, "https://example.org/mod".toList, "example.org/mod".toList⟩
    _ (by rfl)

/-- C6: if any resolution task fails, `asyncMap` returns the error of a
failing task, and a result list is returned only when every task succeeded
(and then it has one result per record): all-or-nothing, no partial list
reaches the output stage. -/
theorem asyncMap_all_or_error {T R : Type} (f : T → Except (List Char) R) (s : List T) :
    ((∃ v ∈ s, ∃ e, f v = .error e) →
      ∃ v ∈ s, ∃ e, f v = .error e ∧ asyncMap f s = .error e) ∧
    (∀ rs, asyncMap f s = .ok rs → (∀ v ∈ s, ∃ r, f v = .ok r) ∧ rs.length = s.length) := by
  induction s with
  | nil =>
    refine ⟨?_, ?_⟩
    · rintro ⟨v, hv, -⟩
      exact absurd hv (List.not_mem_nil v)
    · intro rs h
      refine ⟨fun v hv => absurd hv (List.not_mem_nil v), ?_⟩
      unfold asyncMap at h
      cases h
      rfl
  | cons v vs ih =>
    refine ⟨?_, ?_⟩
    · rintro ⟨v', hv', e', he'⟩
      cases hfv : f v with
      | error e =>
        exact ⟨v, List.mem_cons_self _ _, e, hfv, by unfold asyncMap; rw [hfv]⟩
      | ok r =>
        have hv'vs : v' ∈ vs := by
          rcases List.mem_cons.mp hv' with rfl | hm
          · rw [hfv] at he'; cases he'
          · exact hm
        obtain ⟨v'', hm'', e'', hfe'', hmap''⟩ := ih.1 ⟨v', hv'vs, e', he'⟩
        exact ⟨v'', List.mem_cons_of_mem _ hm'', e'', hfe'',
          by unfold asyncMap; rw [hfv, hmap'']⟩
    · intro rs h
      unfold asyncMap at h
      cases hfv : f v with
      | error e => rw [hfv] at h; cases h
      | ok r =>
        rw [hfv] at h
        cases hrec : asyncMap f vs with
        | error e => rw [hrec] at h; cases h
        | ok rs' =>
          rw [hrec] at h
          cases h
          obtain ⟨hall, hlen⟩ := ih.2 rs' hrec
          refine ⟨?_, by simpa using hlen⟩
          intro v' hv'
          rcases List.mem_cons.mp hv' with rfl | hm
          · exact ⟨r, hfv⟩
          · exact hall v' hm

/-- Witness for C6: with the second of two tasks failing, `asyncMap` returns
that task's error. -/
theorem asyncMap_all_or_error_witness :
    ∃ v ∈ [0, 1], ∃ e,
      (fun n : Nat => if n = 1 then Except.error "boom".toList else Except.ok n) v =
          .error e ∧
        asyncMap (fun n : Nat => if n = 1 then Except.error "boom".toList else Except.ok n)
            [0, 1] =
          .error e :=
  (asyncMap_all_or_error _ _).1 ⟨1, by simp, "boom".toList, rfl⟩

/-- C7 counterexample: for the identifier `p@` the version component after
the separator is empty, yet the latest-version endpoint is not consulted (a
consultation would have produced this collaborator's error) and the empty
version is passed through. -/
theorem empty_version_skips_latest :
    (goCutChar "p@".toList '@').2.1 = [] ∧
      resolveRootVersion (fun _ => .error "latest-endpoint".toList) "p@".toList =
        .ok ("p".toList, []) :=
  ⟨rfl, rfl⟩

/-- C7 (amended): the latest-version endpoint is consulted exactly when the
identifier has no `@` separator or the version component is the literal
`latest`; an identifier `path@` with an empty version after the separator
does not trigger it and the empty version is used as-is. -/
theorem latest_resolution_condition (latestOf : List Char → Except (List Char) (List Char))
    (base : List Char) :
    ((goCutChar base '@').2.2 = false ∨ (goCutChar base '@').2.1 = "latest".toList →
      resolveRootVersion latestOf base =
        match latestOf (goCutChar base '@').1 with
        | .error e => .error e
        | .ok v => .ok ((goCutChar base '@').1, v)) ∧
    ((goCutChar base '@').2.2 = true → (goCutChar base '@').2.1 ≠ "latest".toList →
      resolveRootVersion latestOf base = .ok ((goCutChar base '@').1, (goCutChar base '@').2.1)) := by
  constructor
  · intro h
    unfold resolveRootVersion
    have hc : (!(goCutChar base '@').2.2 ||
        decide ((goCutChar base '@').2.1 = "latest".toList)) = true := by
      rcases h with h | h
      · rw [h]; rfl
      · rw [h]; simp
    simp only [hc]
    rw [if_pos trivial]
  · intro h1 h2
    unfold resolveRootVersion
    have hc : (!(goCutChar base '@').2.2 ||
        decide ((goCutChar base '@').2.1 = "latest".toList)) = false := by
      rw [h1]
      simpa using h2
    simp only [hc]
    rw [if_neg (by simp)]

/-- Witness for C7's amended claim, at the separator-free identifier `p` and
at the pinned identifier `p@v1.2.3`. -/
theorem latest_resolution_condition_witness :
    resolveRootVersion (fun _ => .ok "v9.9.9".toList) "p".toList =
        .ok ("p".toList, "v9.9.9".toList) ∧
      resolveRootVersion (fun _ => .ok "v9.9.9".toList) "p@v1.2.3".toList =
        .ok ("p".toList, "v1.2.3".toList) :=
  ⟨(latest_resolution_condition (fun _ => .ok "v9.9.9".toList) "p".toList).1
      (Or.inl (by decide)),
    (latest_resolution_condition (fun _ => .ok "v9.9.9".toList) "p@v1.2.3".toList).2
      (by decide) (by decide)⟩

/-- C8 counterexample: for package path `other.org/x` whose discovered root
`example.org/mod` is not a prefix of it, the resolver does not fail: it
succeeds, tagging with the full package path and rooting `dest` at the
discovered root. -/
theorem no_prefix_check_counterexample :
    goStartsWith "other.org/x".toList "example.org/mod".toList = false ∧
      source "other.org/x".toList "v1.0.0".toList
          ⟨"git".toList, "https://example.org/mod".toList, "example.org/mod".toList⟩ =
        .ok ⟨"git".toList, "https://example.org/mod".toList,
          "other.org/x/v1.0.0".toList, [], "vendor/example.org/mod".toList,
          false, false, false⟩ :=
  ⟨rfl, rfl⟩

/-- C8 (amended): when the package path is not prefixed by the discovered
root, `strings.TrimPrefix` leaves the path unchanged and the resolver still
succeeds (the subdirectory is computed from the full path); no error is
raised. -/
theorem no_prefix_check (path version : List Char) (rr : RepoRoot)
    (h : goStartsWith path rr.root = false) :
    goTrimStart path rr.root = path ∧ ∃ s, source path version rr = .ok s :=
  ⟨goTrimStart_of_not_started h, _, source_eq path version rr⟩

/-- Witness for C8's amended claim at the mismatched input. -/
theorem no_prefix_check_witness :
    goTrimStart "other.org/x".toList "example.org/mod".toList = "other.org/x".toList ∧
      ∃ s, source "other.org/x".toList "v1.0.0".toList
          ⟨"git".toList, "https://example.org/mod".toList, "example.org/mod".toList⟩ =
        .ok s :=
  no_prefix_check "other.org/x".toList "v1.0.0".toList
    ⟨"git".toList, "https://example.org/mod".toList, "example.org/mod".toList⟩ (by decide)

/-- C10: the three git options are copied into a resolved descriptor exactly
when its VCS type is `git`; for any other type the flags stay `false`
whatever options were supplied. -/
theorem gitflags_only_for_git (opts : Options) (path version : List Char) (rr : RepoRoot)
    (s : Source) (h : resolveDep opts path version rr = .ok s) :
    (s.type ≠ "git".toList →
      s.disableFsckObjects = false ∧ s.disableShallowClone = false ∧
        s.disableSubmodules = false) ∧
    (s.type = "git".toList →
      s.disableFsckObjects = opts.disableFsckObjects ∧
        s.disableShallowClone = opts.disableShallowClone ∧
        s.disableSubmodules = opts.disableSubmodules) := by
  unfold resolveDep at h
  rw [source_eq] at h
  cases h
  unfold applyGitOptions
  split
  case isTrue hc =>
    refine ⟨fun hne => absurd ?_ hne, fun _ => ⟨rfl, rfl, rfl⟩⟩
    simpa using hc
  case isFalse hc =>
    refine ⟨fun _ => ⟨rfl, rfl, rfl⟩, fun he => absurd ?_ hc⟩
    simpa using he

/-- Witness for C10 at a mercurial repository with all options set: the
flags stay `false`. -/
theorem gitflags_only_for_git_witness :
    Source.type ⟨"hg".toList, "https://example.org/mod".toList, "v1.0.0".toList, [],
          "vendor/example.org/mod".toList, false, false, false⟩ ≠ "git".toList ∧
      (Source.disableFsckObjects ⟨"hg".toList, "https://example.org/mod".toList,
            "v1.0.0".toList, [], "vendor/example.org/mod".toList, false, false, false⟩ = false ∧
        Source.disableShallowClone ⟨"hg".toList, "https://example.org/mod".toList,
            "v1.0.0".toList, [], "vendor/example.org/mod".toList, false, false, false⟩ = false ∧
        Source.disableSubmodules ⟨"hg".toList, "https://example.org/mod".toList,
            "v1.0.0".toList, [], "vendor/example.org/mod".toList, false, false, false⟩ = false) :=
  ⟨by decide,
    (gitflags_only_for_git ⟨true, true, true⟩ "example.org/mod".toList "v1.0.0".toList
      ⟨"hg".toList, "https://example.org/mod".toList, "example.org/mod".toList⟩ _ (by rfl)).1
      (by decide)⟩

/-! ### Order lemmas for the output sort -/

theorem goStringLt_nil_right (l : List Char) : goStringLt l [] = false := by
  cases l <;> rfl

theorem goStringLt_cons_cons (a b : Char) (as bs : List Char) :
    goStringLt (a :: as) (b :: bs) =
      (if a < b then true else if b < a then false else goStringLt as bs) := rfl

theorem goStringLt_asymm {a b : List Char} (h : goStringLt a b = true) :
    goStringLt b a = false := by
  induction a generalizing b with
  | nil =>
    cases b with
    | nil => cases h
    | cons y ys => exact goStringLt_nil_right _
  | cons x xs ih =>
    cases b with
    | nil => rw [goStringLt_nil_right] at h; cases h
    | cons y ys =>
      rw [goStringLt_cons_cons] at h
      rw [goStringLt_cons_cons]
      by_cases hxy : x < y
      · rw [if_neg (asymm hxy), if_pos hxy]
      · rw [if_neg hxy] at h
        by_cases hyx : y < x
        · rw [if_pos hyx] at h; cases h
        · rw [if_neg hyx] at h
          rw [if_neg hyx, if_neg hxy]
          exact ih h

theorem goStringLt_conn {a b : List Char} (hab : goStringLt a b = false)
    (hba : goStringLt b a = false) : a = b := by
  induction a generalizing b with
  | nil =>
    cases b with
    | nil => rfl
    | cons y ys => cases hab
  | cons x xs ih =>
    cases b with
    | nil => cases hba
    | cons y ys =>
      rw [goStringLt_cons_cons] at hab hba
      by_cases hxy : x < y
      · rw [if_pos hxy] at hab; cases hab
      · by_cases hyx : y < x
        · rw [if_pos hyx] at hba; cases hba
        · rw [if_neg hxy, if_neg hyx] at hab
          rw [if_neg hyx, if_neg hxy] at hba
          rw [le_antisymm (not_lt.mp hyx) (not_lt.mp hxy), ih hab hba]

theorem goStringLt_trans {a b c : List Char} (hab : goStringLt a b = true)
    (hbc : goStringLt b c = true) : goStringLt a c = true := by
  induction a generalizing b c with
  | nil =>
    cases c with
    | nil =>
      cases b with
      | nil => cases hab
      | cons y ys => rw [goStringLt_nil_right] at hbc; cases hbc
    | cons z zs => rfl
  | cons x xs ih =>
    cases b with
    | nil => rw [goStringLt_nil_right] at hab; cases hab
    | cons y ys =>
      cases c with
      | nil => rw [goStringLt_nil_right] at hbc; cases hbc
      | cons z zs =>
        rw [goStringLt_cons_cons] at hab hbc
        rw [goStringLt_cons_cons]
        by_cases hxy : x < y
        · rw [if_pos hxy] at hab
          by_cases hyz : y < z
          · rw [if_pos (hxy.trans hyz)]
          · by_cases hzy : z < y
            · rw [if_neg hyz, if_pos hzy] at hbc; cases hbc
            · have : y = z := le_antisymm (not_lt.mp hzy) (not_lt.mp hyz)
              rw [← this, if_pos hxy]
        · by_cases hyx : y < x
          · rw [if_neg hxy, if_pos hyx] at hab; cases hab
          · have hxy' : x = y := le_antisymm (not_lt.mp hyx) (not_lt.mp hxy)
            rw [if_neg hxy, if_neg hyx] at hab
            by_cases hyz : y < z
            · rw [hxy', if_pos hyz]
            · by_cases hzy : z < y
              · rw [if_neg hyz, if_pos hzy] at hbc; cases hbc
              · rw [if_neg hyz, if_neg hzy] at hbc
                subst hxy'
                rw [if_neg hyz, if_neg hzy]
                exact ih hab hbc

/-- The sortedness relation the Go sort guarantees: the later element's
`dest` is not strictly below the earlier one's. -/
def destLe (a b : Source) : Prop := goStringLt b.dest a.dest = false

/-- Strict `dest` order between descriptors. -/
def destLtP (a b : Source) : Prop := goStringLt a.dest b.dest = true

instance : IsAntisymm Source destLtP :=
  ⟨fun a b h1 h2 => by
    have h1' : goStringLt a.dest b.dest = true := h1
    have h2' : goStringLt b.dest a.dest = true := h2
    rw [goStringLt_asymm h1'] at h2'
    cases h2'⟩

theorem mem_insertByDest {z x : Source} {l : List Source}
    (h : z ∈ insertByDest x l) : z = x ∨ z ∈ l := by
  induction l with
  | nil => simpa [insertByDest] using h
  | cons y ys ih =>
    unfold insertByDest at h
    split at h
    · rcases List.mem_cons.mp h with rfl | hm
      · exact Or.inl rfl
      · exact Or.inr hm
    · rcases List.mem_cons.mp h with rfl | hm
      · exact Or.inr (List.mem_cons_self _ _)
      · rcases ih hm with hh | hh
        · exact Or.inl hh
        · exact Or.inr (List.mem_cons_of_mem _ hh)

theorem perm_insertByDest (x : Source) (l : List Source) :
    List.Perm (insertByDest x l) (x :: l) := by
  induction l with
  | nil => exact List.Perm.refl _
  | cons y ys ih =>
    unfold insertByDest
    split
    · exact List.Perm.refl _
    · exact ((ih.cons y).trans (List.Perm.swap x y ys))

theorem sorted_insertByDest {x : Source} {l : List Source}
    (h : List.Pairwise destLe l) : List.Pairwise destLe (insertByDest x l) := by
  induction l with
  | nil => simp [insertByDest]
  | cons y ys ih =>
    rw [List.pairwise_cons] at h
    obtain ⟨hy, hys⟩ := h
    unfold insertByDest
    split
    case isTrue hlt =>
      rw [List.pairwise_cons]
      refine ⟨?_, List.pairwise_cons.mpr ⟨hy, hys⟩⟩
      intro z hz
      rcases List.mem_cons.mp hz with rfl | hm
      · exact goStringLt_asymm hlt
      · show goStringLt z.dest x.dest = false
        by_contra hc
        rw [Bool.not_eq_false] at hc
        have := goStringLt_trans hc hlt
        exact absurd this (by rw [hy z hm]; simp)
    case isFalse hlt =>
      rw [Bool.not_eq_true] at hlt
      rw [List.pairwise_cons]
      refine ⟨?_, ih hys⟩
      intro z hz
      rcases mem_insertByDest hz with rfl | hm
      · exact hlt
      · exact hy z hm

theorem sortByDest_sorted (l : List Source) : List.Pairwise destLe (sortByDest l) := by
  suffices haux : ∀ acc, List.Pairwise destLe acc →
      List.Pairwise destLe (List.foldl (fun acc x => insertByDest x acc) acc l) from
    haux [] (List.Pairwise.nil)
  induction l with
  | nil => intro acc hacc; exact hacc
  | cons x xs ih =>
    intro acc hacc
    exact ih _ (sorted_insertByDest hacc)

theorem sortByDest_perm (l : List Source) : List.Perm (sortByDest l) l := by
  suffices haux : ∀ acc, List.Perm
      (List.foldl (fun acc x => insertByDest x acc) acc l) (acc ++ l) by
    simpa using haux []
  induction l with
  | nil => intro acc; simp
  | cons x xs ih =>
    intro acc
    refine ((ih _).trans ?_)
    have h1 : List.Perm (insertByDest x acc ++ xs) ((x :: acc) ++ xs) :=
      (perm_insertByDest x acc).append_right xs
    exact h1.trans List.perm_middle.symm

/-- C5 (amended): the output of the sorting stage is always ordered ascending
by `dest` and is a permutation of the collected results; and it is identical
across completion orders provided the `dest` values are pairwise distinct —
descriptors with equal `dest` keep their completion order, so ties make the
output order depend on completion order. -/
theorem sortByDest_deterministic (l1 l2 : List Source) (hp : List.Perm l1 l2) :
    List.Pairwise destLe (sortByDest l1) ∧ List.Perm (sortByDest l1) l1 ∧
      ((l1.map Source.dest).Nodup → sortByDest l1 = sortByDest l2) := by
  refine ⟨sortByDest_sorted l1, sortByDest_perm l1, ?_⟩
  intro hnd
  have hperm : List.Perm (sortByDest l1) (sortByDest l2) :=
    ((sortByDest_perm l1).trans hp).trans (sortByDest_perm l2).symm
  have hstrict : ∀ l : List Source, (l.map Source.dest).Nodup →
      List.Pairwise destLtP (sortByDest l) := by
    intro l hl
    have hnds : ((sortByDest l).map Source.dest).Nodup := by
      have := (sortByDest_perm l).map Source.dest
      exact (this.nodup_iff).mpr hl
    have hne : List.Pairwise (fun a b : Source => a.dest ≠ b.dest) (sortByDest l) :=
      (List.pairwise_map).mp hnds
    have hle := sortByDest_sorted l
    refine (hle.and hne).imp ?_
    rintro a b ⟨h1, h2⟩
    show goStringLt a.dest b.dest = true
    by_contra hc
    rw [Bool.not_eq_true] at hc
    exact h2 (goStringLt_conn hc h1)
  have hnd2 : (l2.map Source.dest).Nodup := by
    have := hp.map Source.dest
    exact this.nodup_iff.mp hnd
  exact List.eq_of_perm_of_sorted hperm (hstrict l1 hnd) (hstrict l2 hnd2)

/-- C5 counterexample: two descriptors sharing `dest` but differing in tag
(two subpackages of one repository at major version 1) produce different
final outputs for the two possible completion orders. -/
theorem sortByDest_ties_counterexample :
    sortByDest
        [⟨"git".toList, "u".toList, "v1.0.0".toList, [], "vendor/example.org/mod".toList,
          false, false, false⟩,
         ⟨"git".toList, "u".toList, "sub/v1.2.0".toList, [], "vendor/example.org/mod".toList,
          false, false, false⟩] ≠
      sortByDest
        [⟨"git".toList, "u".toList, "sub/v1.2.0".toList, [], "vendor/example.org/mod".toList,
          false, false, false⟩,
         ⟨"git".toList, "u".toList, "v1.0.0".toList, [], "vendor/example.org/mod".toList,
          false, false, false⟩] := by
  decide

/-- Witness for C5's amended claim on two distinct-`dest` descriptors in both
completion orders. -/
theorem sortByDest_deterministic_witness :
    List.Pairwise destLe (sortByDest
        [⟨"git".toList, "u".toList, "v1.0.0".toList, [], "vendor/a".toList, false, false, false⟩,
         ⟨"git".toList, "u".toList, "v2.0.0".toList, [], "vendor/b".toList, false, false, false⟩]) ∧
      sortByDest
          [⟨"git".toList, "u".toList, "v1.0.0".toList, [], "vendor/a".toList, false, false, false⟩,
           ⟨"git".toList, "u".toList, "v2.0.0".toList, [], "vendor/b".toList, false, false, false⟩] =
        sortByDest
          [⟨"git".toList, "u".toList, "v2.0.0".toList, [], "vendor/b".toList, false, false, false⟩,
           ⟨"git".toList, "u".toList, "v1.0.0".toList, [], "vendor/a".toList, false, false, false⟩] :=
  ⟨(sortByDest_deterministic
      [⟨"git".toList, "u".toList, "v1.0.0".toList, [], "vendor/a".toList, false, false, false⟩,
       ⟨"git".toList, "u".toList, "v2.0.0".toList, [], "vendor/b".toList, false, false, false⟩]
      [⟨"git".toList, "u".toList, "v2.0.0".toList, [], "vendor/b".toList, false, false, false⟩,
       ⟨"git".toList, "u".toList, "v1.0.0".toList, [], "vendor/a".toList, false, false, false⟩]
      (List.Perm.swap _ _ _)).1,
    (sortByDest_deterministic
      [⟨"git".toList, "u".toList, "v1.0.0".toList, [], "vendor/a".toList, false, false, false⟩,
       ⟨"git".toList, "u".toList, "v2.0.0".toList, [], "vendor/b".toList, false, false, false⟩]
      [⟨"git".toList, "u".toList, "v2.0.0".toList, [], "vendor/b".toList, false, false, false⟩,
       ⟨"git".toList, "u".toList, "v1.0.0".toList, [], "vendor/a".toList, false, false, false⟩]
      (List.Perm.swap _ _ _)).2.2 (by decide)⟩

/-! ### Structure of a matched pseudo-version

The lemmas below recover, from a successful run of the pattern decision
procedure, the grammar decomposition of the version string: a `'+'`-free
core, the dash, the nonempty alphanumeric revision, and the optional build
suffix.  Together with a decomposition of the semver parser they identify
the revision `parsePseudoVersion` extracts. -/

theorem headD_tail_decomp {l : List Char} {c d : Char} (h1 : l.isEmpty = false)
    (h2 : l.headD d = c) : l = c :: l.tail := by
  cases l with
  | nil => cases h1
  | cons x xs => simp at h2; rw [h2]; rfl

theorem all_takeWhile (p : Char → Bool) (l : List Char) :
    (l.takeWhile p).all p = true := by
  induction l with
  | nil => rfl
  | cons x xs ih =>
    by_cases hx : p x = true
    · rw [List.takeWhile_cons_of_pos hx]
      simp [hx, ih]
    · rw [List.takeWhile_cons_of_neg (by simpa using hx)]
      rfl

theorem takeWhile_decomp (p : Char → Bool) (l : List Char) :
    l = l.takeWhile p ++ l.drop (l.takeWhile p).length := by
  induction l with
  | nil => rfl
  | cons x xs ih =>
    by_cases hx : p x = true
    · rw [List.takeWhile_cons_of_pos hx]
      simp only [List.length_cons, List.cons_append, List.drop_succ_cons]
      exact congrArg (x :: ·) ih
    · rw [List.takeWhile_cons_of_neg (by simpa using hx)]
      simp

theorem take_decomp {l L : List Char} {n : Nat} (h : l.take n = L) :
    l = L ++ l.drop n := by
  rw [← h, List.take_append_drop]

theorem ne_plus_of_digit {c : Char} (h : isDigitCh c = true) : c ≠ '+' := by
  rintro rfl
  cases h

theorem ne_plus_of_alnum {c : Char} (h : isAlnumCh c = true) : c ≠ '+' := by
  rintro rfl
  cases h

theorem ne_plus_of_ident {c : Char} (h : semver.isIdentCh c = true) : c ≠ '+' := by
  rintro rfl
  cases h

theorem ne_dash_of_alnum {c : Char} (h : isAlnumCh c = true) : c ≠ '-' := by
  rintro rfl
  cases h

theorem plusFree_of_all_digit {l : List Char} (h : l.all isDigitCh = true) :
    ∀ ch ∈ l, ch ≠ '+' := fun ch hm =>
  ne_plus_of_digit (by exact List.all_eq_true.mp h ch hm)

/-- Decomposition a matched core-and-tail guarantees: a `'+'`-free part, a
dash, a nonempty alphanumeric revision, and an empty-or-`'+'`-led build. -/
def CoreShape (w : List Char) : Prop :=
  ∃ pf rev bld, w = pf ++ '-' :: (rev ++ bld) ∧ (∀ ch ∈ pf, ch ≠ '+') ∧
    rev ≠ [] ∧ rev.all isAlnumCh = true ∧ (bld = [] ∨ ∃ r2, bld = '+' :: r2)

theorem coreShape_cons {ch : Char} {w : List Char} (hch : ch ≠ '+')
    (h : CoreShape w) : CoreShape (ch :: w) := by
  obtain ⟨pf, rev, bld, hw, hpf, hrev, halnum, hbld⟩ := h
  exact ⟨ch :: pf, rev, bld, by rw [hw]; rfl,
    fun c hm => by
      rcases List.mem_cons.mp hm with rfl | hm2
      · exact hch
      · exact hpf c hm2,
    hrev, halnum, hbld⟩

theorem coreShape_append {xs w : List Char} (hxs : ∀ ch ∈ xs, ch ≠ '+')
    (h : CoreShape w) : CoreShape (xs ++ w) := by
  induction xs with
  | nil => simpa using h
  | cons x xt ih =>
    have hx : x ≠ '+' := hxs x (List.mem_cons_self _ _)
    have := coreShape_cons hx (ih (fun ch hm => hxs ch (List.mem_cons_of_mem _ hm)))
    simpa using this

namespace modpseudo

theorem matchBuildOpt_shape {b : List Char} (h : matchBuildOpt b = true) :
    b = [] ∨ ∃ r2, b = '+' :: r2 := by
  cases b with
  | nil => exact Or.inl rfl
  | cons c r =>
    unfold matchBuildOpt at h
    rw [Bool.and_eq_true, decide_eq_true_eq] at h
    exact Or.inr ⟨r, by rw [h.1]⟩

theorem matchCore_shape {t : List Char} (h : matchCore t = true) : CoreShape t := by
  unfold matchCore at h
  simp only [Bool.and_eq_true, decide_eq_true_eq, Bool.not_eq_true',
    List.isEmpty_eq_false] at h
  obtain ⟨⟨⟨⟨hlen, hdig⟩, hne⟩, hhd⟩, hrev, hbld⟩ := h
  have hrest : t.drop 14 = '-' :: (t.drop 14).tail :=
    headD_tail_decomp (by simpa using hne) hhd
  have ht : t = t.take 14 ++ t.drop 14 := (List.take_append_drop 14 t).symm
  set r := (t.drop 14).tail with hr
  have hrdec : r = r.takeWhile isAlnumCh ++ r.drop (r.takeWhile isAlnumCh).length :=
    takeWhile_decomp _ _
  refine ⟨t.take 14, r.takeWhile isAlnumCh, r.drop (r.takeWhile isAlnumCh).length,
    ?_, plusFree_of_all_digit hdig, by simpa using hrev, all_takeWhile _ _,
    matchBuildOpt_shape hbld⟩
  conv_lhs => rw [ht, hrest]
  rw [← hrdec]

theorem matchOptGroup_shape {u : List Char} (h : matchOptGroup u = true) :
    CoreShape u := by
  unfold matchOptGroup at h
  rw [Bool.or_eq_true] at h
  rcases h with h | h
  · rw [Bool.and_eq_true, decide_eq_true_eq] at h
    obtain ⟨htake, hcore⟩ := h
    have hu : u = '0' :: '.' :: u.drop 2 := take_decomp htake
    rw [hu]
    exact coreShape_cons (by decide) (coreShape_cons (by decide) (matchCore_shape hcore))
  · rw [List.any_eq_true] at h
    obtain ⟨k, -, hk⟩ := h
    simp only [Bool.and_eq_true, decide_eq_true_eq] at hk
    obtain ⟨⟨hfree, hdot⟩, htake2, hcore⟩ := hk
    by_cases hdropnil : (u.drop k).isEmpty = true
    · rw [List.isEmpty_eq_true] at hdropnil
      rw [hdropnil] at hdot
      cases hdot
    · have hdrop : u.drop k = '.' :: (u.drop k).tail :=
        headD_tail_decomp (by simpa using hdropnil) hdot
      have hu2 : (u.drop k).tail = '0' :: '.' :: ((u.drop k).tail.drop 2) :=
        take_decomp htake2
      have hu : u = u.take k ++ u.drop k := (List.take_append_drop k u).symm
      rw [hu, hdrop, hu2]
      refine coreShape_append ?_ (coreShape_cons (by decide)
        (coreShape_cons (by decide) (coreShape_cons (by decide)
          (matchCore_shape hcore))))
      intro ch hm
      exact (List.all_eq_true.mp hfree ch hm : decide (ch ≠ '+') = true)
        |> of_decide_eq_true

theorem matchMid_shape {t : List Char} (h : matchMid t = true) : CoreShape t := by
  unfold matchMid at h
  rw [Bool.or_eq_true] at h
  rcases h with h | h
  · rw [Bool.and_eq_true, decide_eq_true_eq] at h
    obtain ⟨htake, hcore⟩ := h
    rw [take_decomp htake]
    exact coreShape_cons (by decide) (coreShape_cons (by decide)
      (coreShape_cons (by decide) (coreShape_cons (by decide)
        (matchCore_shape hcore))))
  · simp only [Bool.and_eq_true, decide_eq_true_eq, Bool.not_eq_true',
      List.isEmpty_eq_false] at h
    obtain ⟨⟨⟨-, ht1⟩, hdot⟩, ⟨⟨-, ht3⟩, hdash⟩, hgrp⟩ := h
    have hd1 : t = t.takeWhile isDigitCh ++ t.drop (t.takeWhile isDigitCh).length :=
      takeWhile_decomp _ _
    set t1 := t.drop (t.takeWhile isDigitCh).length with ht1def
    have ht1' : t1 = '.' :: t1.tail := headD_tail_decomp (by simpa using ht1) hdot
    set t2 := t1.tail with ht2def
    have hd2 : t2 = t2.takeWhile isDigitCh ++ t2.drop (t2.takeWhile isDigitCh).length :=
      takeWhile_decomp _ _
    set t3 := t2.drop (t2.takeWhile isDigitCh).length with ht3def
    have ht3' : t3 = '-' :: t3.tail := headD_tail_decomp (by simpa using ht3) hdash
    have hshape : CoreShape t3.tail := matchOptGroup_shape hgrp
    rw [hd1, ht1', hd2, ht3']
    refine coreShape_append (plusFree_of_all_digit (all_takeWhile _ _))
      (coreShape_cons (by decide) ?_)
    exact coreShape_append (plusFree_of_all_digit (all_takeWhile _ _))
      (coreShape_cons (by decide) hshape)

theorem matchPseudoRE_shape {v : List Char} (h : matchPseudoRE v = true) :
    CoreShape v := by
  unfold matchPseudoRE at h
  simp only [Bool.and_eq_true, decide_eq_true_eq, Bool.not_eq_true',
    List.isEmpty_eq_false] at h
  obtain ⟨⟨hvne, hvhd⟩, ⟨⟨-, hr2ne⟩, hr2dot⟩, hmid⟩ := h
  have hv : v = 'v' :: v.tail := headD_tail_decomp (by simpa using hvne) hvhd
  set rest := v.tail with hrest
  have hd : rest = rest.takeWhile isDigitCh ++
      rest.drop (rest.takeWhile isDigitCh).length := takeWhile_decomp _ _
  set r2 := rest.drop (rest.takeWhile isDigitCh).length with hr2
  have hr2' : r2 = '.' :: r2.tail := headD_tail_decomp (by simpa using hr2ne) hr2dot
  rw [hv, hd, hr2']
  exact coreShape_cons (by decide)
    (coreShape_append (plusFree_of_all_digit (all_takeWhile _ _))
      (coreShape_cons (by decide) (matchMid_shape hmid)))

end modpseudo

namespace semver

theorem parseInt_decomp {v t r : List Char} (h : parseInt v = some (t, r)) :
    v = t ++ r ∧ t.all isDigitCh = true ∧ t ≠ [] := by
  unfold parseInt at h
  split at h
  next => cases h
  next hne =>
    split at h
    next hdig =>
      split at h
      next => cases h
      next =>
        simp only [Option.some.injEq, Prod.mk.injEq] at h
        obtain ⟨ht, hr⟩ := h
        subst ht; subst hr
        refine ⟨takeWhile_decomp isDigitCh v, all_takeWhile _ _, ?_⟩
        have hv : v = v.headD ' ' :: v.tail :=
          headD_tail_decomp (by simpa using hne) rfl
        rw [hv, List.takeWhile_cons_of_pos hdig]
        simp
    next => cases h

theorem preAux_decomp {rem : List Char} :
    ∀ {seg t r : List Char}, preAux rem seg = some (t, r) →
      rem = t ++ r ∧ (∀ ch ∈ t, ch ≠ '+') ∧ (r = [] ∨ ∃ r2, r = '+' :: r2) := by
  induction rem with
  | nil =>
    intro seg t r h
    unfold preAux at h
    split at h
    next => cases h
    next =>
      simp only [Option.some.injEq, Prod.mk.injEq] at h
      obtain ⟨ht, hr⟩ := h
      subst ht; subst hr
      exact ⟨rfl, fun ch hm => absurd hm (List.not_mem_nil ch), Or.inl rfl⟩
  | cons c rest ih =>
    intro seg t r h
    unfold preAux at h
    by_cases h1 : c = '+'
    · rw [if_pos h1] at h
      split at h
      next => cases h
      next =>
        simp only [Option.some.injEq, Prod.mk.injEq] at h
        obtain ⟨ht, hr⟩ := h
        subst ht; subst hr
        exact ⟨rfl, fun ch hm => absurd hm (List.not_mem_nil ch),
          Or.inr ⟨rest, by rw [h1]⟩⟩
    · rw [if_neg h1] at h
      by_cases h2 : c = '.'
      · rw [if_pos h2] at h
        split at h
        next => cases h
        next =>
          cases hrec : preAux rest ([] : List Char) with
          | none => rw [hrec] at h; cases h
          | some tr =>
            obtain ⟨t', r'⟩ := tr
            rw [hrec] at h
            simp only [Option.some.injEq, Prod.mk.injEq] at h
            obtain ⟨ht, hr⟩ := h
            subst ht; subst hr
            obtain ⟨hdec, hpf, hshape⟩ := ih hrec
            refine ⟨by rw [hdec]; rfl, ?_, hshape⟩
            intro ch hm
            rcases List.mem_cons.mp hm with rfl | hm2
            · exact h1
            · exact hpf ch hm2
      · rw [if_neg h2] at h
        split at h
        next =>
          cases hrec : preAux rest (seg ++ [c]) with
          | none => rw [hrec] at h; cases h
          | some tr =>
            obtain ⟨t', r'⟩ := tr
            rw [hrec] at h
            simp only [Option.some.injEq, Prod.mk.injEq] at h
            obtain ⟨ht, hr⟩ := h
            subst ht; subst hr
            obtain ⟨hdec, hpf, hshape⟩ := ih hrec
            refine ⟨by rw [hdec]; rfl, ?_, hshape⟩
            intro ch hm
            rcases List.mem_cons.mp hm with rfl | hm2
            · exact h1
            · exact hpf ch hm2
        next => cases h

theorem parsePrerelease_decomp {v t r : List Char}
    (h : parsePrerelease v = some (t, r)) :
    v = t ++ r ∧ (∀ ch ∈ t, ch ≠ '+') ∧ (r = [] ∨ ∃ r2, r = '+' :: r2) := by
  unfold parsePrerelease at h
  split at h
  next => cases h
  next hne =>
    split at h
    next hdash =>
      cases hrec : preAux v.tail ([] : List Char) with
      | none => rw [hrec] at h; cases h
      | some tr =>
        obtain ⟨t', r'⟩ := tr
        rw [hrec] at h
        simp only [Option.some.injEq, Prod.mk.injEq] at h
        obtain ⟨ht, hr⟩ := h
        subst ht; subst hr
        obtain ⟨hdec, hpf, hshape⟩ := preAux_decomp hrec
        have hv : v = '-' :: v.tail := headD_tail_decomp (by simpa using hne) hdash
        refine ⟨by rw [hv, hdec]; rfl, ?_, hshape⟩
        intro ch hm
        rcases List.mem_cons.mp hm with rfl | hm2
        · decide
        · exact hpf ch hm2
    next => cases h

theorem parseBuild_decomp {v t r : List Char} (h : parseBuild v = some (t, r)) :
    t = v ∧ r = [] ∧ ∃ r2, v = '+' :: r2 := by
  unfold parseBuild at h
  split at h
  next => cases h
  next hne =>
    split at h
    next hplus =>
      split at h
      next =>
        simp only [Option.some.injEq, Prod.mk.injEq] at h
        obtain ⟨ht, hr⟩ := h
        exact ⟨ht.symm, hr.symm, v.tail,
          headD_tail_decomp (by simpa using hne) hplus⟩
      next => cases h
    next => cases h

theorem parseAfterPre_decomp {maj mino pat prel v7 : List Char} {p : Parsed}
    (h : parseAfterPre maj mino pat prel v7 = some p) :
    v7 = p.build ∧ (p.build = [] ∨ ∃ r, p.build = '+' :: r) := by
  unfold parseAfterPre at h
  cases hbl : (if v7.headD ' ' = '+' then parseBuild v7
      else some (([] : List Char), v7)) with
  | none => rw [hbl] at h; cases h
  | some blv =>
    obtain ⟨bld, v8⟩ := blv
    rw [hbl] at h
    replace h : (if v8.isEmpty then
        some (⟨maj, mino, pat, [], prel, bld⟩ : Parsed) else none) = some p := h
    have hv7 : v7 = bld ++ v8 ∧ (bld = [] ∨ ∃ r, bld = '+' :: r) := by
      by_cases hhd : v7.headD ' ' = '+'
      · rw [if_pos hhd] at hbl
        obtain ⟨hb1, hb2, r2, hb3⟩ := parseBuild_decomp hbl
        subst hb1; subst hb2
        exact ⟨by simp, Or.inr ⟨r2, hb3⟩⟩
      · rw [if_neg hhd] at hbl
        simp only [Option.some.injEq, Prod.mk.injEq] at hbl
        obtain ⟨hb1, hb2⟩ := hbl
        subst hb1; subst hb2
        exact ⟨by simp, Or.inl rfl⟩
    obtain ⟨hv7e, hbldshape⟩ := hv7
    split at h
    next h8 =>
      simp only [Option.some.injEq] at h
      subst h
      rw [List.isEmpty_eq_true] at h8
      subst h8
      refine ⟨?_, ?_⟩
      · show v7 = bld
        rw [hv7e]
        simp
      · show bld = [] ∨ ∃ r, bld = '+' :: r
        exact hbldshape
    next => cases h

theorem parseAfterPatch_decomp {maj mino pat v6 : List Char} {p : Parsed}
    (h : parseAfterPatch maj mino pat v6 = some p) :
    ∃ prel, v6 = prel ++ p.build ∧ (∀ ch ∈ prel, ch ≠ '+') ∧
      (p.build = [] ∨ ∃ r, p.build = '+' :: r) := by
  unfold parseAfterPatch at h
  cases hpr : (if v6.headD ' ' = '-' then parsePrerelease v6
      else some (([] : List Char), v6)) with
  | none => rw [hpr] at h; cases h
  | some prv =>
    obtain ⟨prel, v7⟩ := prv
    rw [hpr] at h
    replace h : parseAfterPre maj mino pat prel v7 = some p := h
    have hv6 : v6 = prel ++ v7 ∧ (∀ ch ∈ prel, ch ≠ '+') := by
      by_cases hhd : v6.headD ' ' = '-'
      · rw [if_pos hhd] at hpr
        obtain ⟨a, b, -⟩ := parsePrerelease_decomp hpr
        exact ⟨a, b⟩
      · rw [if_neg hhd] at hpr
        simp only [Option.some.injEq, Prod.mk.injEq] at hpr
        obtain ⟨hp1, hp2⟩ := hpr
        subst hp1; subst hp2
        exact ⟨by simp, fun ch hm => absurd hm (List.not_mem_nil ch)⟩
    obtain ⟨hv6e, hprelfree⟩ := hv6
    obtain ⟨hv7e, hbldshape⟩ := parseAfterPre_decomp h
    exact ⟨prel, by rw [hv6e, hv7e], hprelfree, hbldshape⟩

theorem parseAfterMinor_decomp {maj mino v4 : List Char} {p : Parsed}
    (h : parseAfterMinor maj mino v4 = some p) :
    ∃ pre4, v4 = pre4 ++ p.build ∧ (∀ ch ∈ pre4, ch ≠ '+') ∧
      (p.build = [] ∨ ∃ r, p.build = '+' :: r) := by
  unfold parseAfterMinor at h
  split at h
  next h4 =>
    simp only [Option.some.injEq] at h
    subst h
    rw [List.isEmpty_eq_true] at h4
    subst h4
    exact ⟨[], rfl, fun ch hm => absurd hm (List.not_mem_nil ch), Or.inl rfl⟩
  next hne =>
    split at h
    next hdot =>
      cases hI : parseInt v4.tail with
      | none => rw [hI] at h; cases h
      | some mv =>
        obtain ⟨pat, v6⟩ := mv
        rw [hI] at h
        obtain ⟨hv4t, hpatdig, -⟩ := parseInt_decomp hI
        obtain ⟨prel, hv6e, hprelfree, hshape⟩ := parseAfterPatch_decomp h
        have hv4 : v4 = '.' :: v4.tail := headD_tail_decomp (by simpa using hne) hdot
        refine ⟨'.' :: pat ++ prel, ?_, ?_, hshape⟩
        · rw [hv4, hv4t, hv6e]
          simp
        · intro ch hm
          simp only [List.cons_append, List.mem_cons, List.mem_append] at hm
          rcases hm with rfl | hm
          · decide
          rcases hm with hm | hm
          · exact plusFree_of_all_digit hpatdig ch hm
          · exact hprelfree ch hm
    next => cases h

theorem parseAfterMajor_decomp {maj v2 : List Char} {p : Parsed}
    (h : parseAfterMajor maj v2 = some p) :
    ∃ pre2, v2 = pre2 ++ p.build ∧ (∀ ch ∈ pre2, ch ≠ '+') ∧
      (p.build = [] ∨ ∃ r, p.build = '+' :: r) := by
  unfold parseAfterMajor at h
  split at h
  next h2 =>
    simp only [Option.some.injEq] at h
    subst h
    rw [List.isEmpty_eq_true] at h2
    subst h2
    exact ⟨[], rfl, fun ch hm => absurd hm (List.not_mem_nil ch), Or.inl rfl⟩
  next hne =>
    split at h
    next hdot =>
      cases hI : parseInt v2.tail with
      | none => rw [hI] at h; cases h
      | some mv =>
        obtain ⟨mino, v4⟩ := mv
        rw [hI] at h
        obtain ⟨hv2t, hminodig, -⟩ := parseInt_decomp hI
        obtain ⟨pre4, hv4e, hpre4free, hshape⟩ := parseAfterMinor_decomp h
        have hv2 : v2 = '.' :: v2.tail := headD_tail_decomp (by simpa using hne) hdot
        refine ⟨'.' :: mino ++ pre4, ?_, ?_, hshape⟩
        · rw [hv2, hv2t, hv4e]
          simp
        · intro ch hm
          simp only [List.cons_append, List.mem_cons, List.mem_append] at hm
          rcases hm with rfl | hm
          · decide
          rcases hm with hm | hm
          · exact plusFree_of_all_digit hminodig ch hm
          · exact hpre4free ch hm
    next => cases h

theorem parse_decomp {v : List Char} {p : Parsed} (h : parse v = some p) :
    ∃ pre, v = pre ++ p.build ∧ (∀ ch ∈ pre, ch ≠ '+') ∧
      (p.build = [] ∨ ∃ r, p.build = '+' :: r) := by
  unfold parse at h
  split at h
  next => cases h
  next hne =>
    split at h
    next hv =>
      cases hI : parseInt v.tail with
      | none => rw [hI] at h; cases h
      | some mv =>
        obtain ⟨maj, v2⟩ := mv
        rw [hI] at h
        obtain ⟨hvt, hmajdig, -⟩ := parseInt_decomp hI
        obtain ⟨pre2, hv2e, hpre2free, hshape⟩ := parseAfterMajor_decomp h
        have hvd : v = 'v' :: v.tail := headD_tail_decomp (by simpa using hne) hv
        refine ⟨'v' :: maj ++ pre2, ?_, ?_, hshape⟩
        · rw [hvd, hvt, hv2e]
          simp
        · intro ch hm
          simp only [List.cons_append, List.mem_cons, List.mem_append] at hm
          rcases hm with rfl | hm
          · decide
          rcases hm with hm | hm
          · exact plusFree_of_all_digit hmajdig ch hm
          · exact hpre2free ch hm
    next => cases h

end semver

/-- Two splits of one string at a `'+'`-free part followed by an
empty-or-`'+'`-led remainder agree. -/
theorem plus_split_unique {a b c d : List Char} (h : a ++ b = c ++ d)
    (ha : ∀ ch ∈ a, ch ≠ '+') (hc : ∀ ch ∈ c, ch ≠ '+')
    (hb : b = [] ∨ ∃ r, b = '+' :: r) (hd : d = [] ∨ ∃ r, d = '+' :: r) :
    a = c ∧ b = d := by
  induction a generalizing c with
  | nil =>
    cases c with
    | nil => exact ⟨rfl, by simpa using h⟩
    | cons y cs =>
      exfalso
      rw [List.nil_append, List.cons_append] at h
      rcases hb with rfl | ⟨r, rfl⟩
      · exact List.noConfusion h
      · have hy := (List.cons.injEq _ _ _ _).mp h
        exact hc y (List.mem_cons_self _ _) hy.1.symm
  | cons x xs ih =>
    cases c with
    | nil =>
      exfalso
      rw [List.nil_append, List.cons_append] at h
      rcases hd with rfl | ⟨r, rfl⟩
      · exact List.noConfusion h
      · have hx := (List.cons.injEq _ _ _ _).mp h
        exact ha x (List.mem_cons_self _ _) hx.1
    | cons y cs =>
      rw [List.cons_append, List.cons_append, List.cons.injEq] at h
      obtain ⟨rfl, h2⟩ := h
      obtain ⟨hac, hbd⟩ := ih h2 (fun ch hm => ha ch (List.mem_cons_of_mem _ hm))
        (fun ch hm => hc ch (List.mem_cons_of_mem _ hm))
      exact ⟨by rw [hac], hbd⟩

/-- Bridge: a pseudo-version decomposes per the grammar into a `'+'`-free
core, a dash, a nonempty alphanumeric revision and the optional build
suffix, and `parsePseudoVersion` extracts exactly that revision. -/
theorem pseudo_rev_structure {v : List Char}
    (h : modpseudo.IsPseudoVersion v = true) :
    ∃ core rev bld, v = core ++ '-' :: (rev ++ bld) ∧
      (∀ ch ∈ core, ch ≠ '+') ∧ rev ≠ [] ∧ rev.all isAlnumCh = true ∧
      (bld = [] ∨ ∃ r2, bld = '+' :: r2) ∧ pseudoRevVal v = rev := by
  have h' := h
  unfold modpseudo.IsPseudoVersion at h'
  simp only [Bool.and_eq_true] at h'
  obtain ⟨⟨-, hvalid⟩, hre⟩ := h'
  obtain ⟨core, rev, bld, hv, hcorefree, hrevne, hrevalnum, hbldshape⟩ :=
    modpseudo.matchPseudoRE_shape hre
  obtain ⟨p, hp⟩ := Option.isSome_iff_exists.mp hvalid
  obtain ⟨pre, hv2, hprefree, hbshape2⟩ := semver.parse_decomp hp
  have hfree1 : ∀ ch ∈ core ++ '-' :: rev, ch ≠ '+' := by
    intro ch hm
    rcases List.mem_append.mp hm with hm | hm
    · exact hcorefree ch hm
    · rcases List.mem_cons.mp hm with rfl | hm2
      · decide
      · exact ne_plus_of_alnum (List.all_eq_true.mp hrevalnum ch hm2)
  have heq : (core ++ '-' :: rev) ++ bld = pre ++ p.build := by
    rw [← hv2, hv]
    simp
  obtain ⟨hcorepre, hbldbuild⟩ :=
    plus_split_unique heq hfree1 hprefree hbldshape hbshape2
  have hbuild : semver.Build v = bld := by
    unfold semver.Build
    rw [hp, hbldbuild]
  have htrim : goTrimEnd v (semver.Build v) = core ++ '-' :: rev := by
    rw [hbuild]
    have : v = (core ++ '-' :: rev) ++ bld := by rw [hv]; simp
    rw [this, goTrimEnd_append]
  have hdashrev : '-' ∉ rev := by
    intro hm
    exact absurd (List.all_eq_true.mp hrevalnum '-' hm) (by decide)
  have hlast : lastIndexChar (core ++ '-' :: rev) '-' = (core.length : Int) :=
    lastIndexChar_append hdashrev
  have hrevval : pseudoRevVal v = rev := by
    unfold pseudoRevVal
    rw [htrim]
    show goSliceFrom (core ++ '-' :: rev) (lastIndexChar (core ++ '-' :: rev) '-' + 1) = rev
    rw [hlast, goSliceFrom_append]
  exact ⟨core, rev, bld, hv, hcorefree, hrevne, hrevalnum, hbldshape, hrevval⟩

theorem tagVar_of_pseudo {path version root : List Char}
    (hp : modpseudo.IsPseudoVersion version = true) :
    tagVar path version root = [] := by
  unfold tagVar classifiedTag
  rw [hp]
  simp only [if_true]
  rw [goCutSuffix_nil incompatibleMarker (by decide)]
  simp

theorem tagVar_ne_nil {path version root : List Char}
    (hp : modpseudo.IsPseudoVersion version = false)
    (ht1 : (goCutSuffix version incompatibleMarker).1 ≠ []) :
    tagVar path version root ≠ [] := by
  unfold tagVar classifiedTag
  rw [hp]
  simp only [Bool.false_eq_true, if_false]
  rw [if_pos (by simpa using ht1)]
  split
  · simp
  · exact ht1

/-- C1 counterexample: for the non-pseudo version `v2.0.0+incompatible` at
the repository root, the emitted descriptor's tag is `v2.0.0`, not the
version string — the marker is stripped before emission. -/
theorem incompatible_tag_not_version :
    source "example.org/mod".toList "v2.0.0+incompatible".toList
        ⟨"git".toList, "https://example.org/mod".toList, "example.org/mod".toList⟩ =
      .ok ⟨"git".toList, "https://example.org/mod".toList, "v2.0.0".toList, [],
        "vendor/example.org/mod".toList, false, false, false⟩ ∧
    modpseudo.IsPseudoVersion "v2.0.0+incompatible".toList = false ∧
    "v2.0.0".toList ≠ "v2.0.0+incompatible".toList :=
  ⟨rfl, by decide, by decide⟩

/-- C1 (amended): for a pseudo-version the emitted descriptor has empty tag
and commit equal to the revision embedded in the pseudo-version (the
alphanumeric run of its grammar decomposition); otherwise the commit is empty
and the emitted tag is the version string with any trailing `+incompatible`
marker stripped and, when the package is not at the repository root, prefixed
by the subdirectory — in particular, with no marker and the package at the
root the tag equals the version string exactly. -/
theorem classification_pseudo_or_tag (path version : List Char) (rr : RepoRoot) :
    (modpseudo.IsPseudoVersion version = true →
      ∃ rev core bld, version = core ++ '-' :: (rev ++ bld) ∧
        rev ≠ [] ∧ rev.all isAlnumCh = true ∧
        modpseudo.PseudoVersionRev version = .ok rev ∧
        ∃ s, source path version rr = .ok s ∧ s.tag = [] ∧ s.commit = rev) ∧
    (modpseudo.IsPseudoVersion version = false →
      ∃ s, source path version rr = .ok s ∧ s.commit = [] ∧
        s.tag = tagVar path version rr.root ∧
        (goEndsWith version incompatibleMarker = false → path = rr.root →
          s.tag = version)) := by
  constructor
  · intro hp
    obtain ⟨core, rev, bld, hv, -, hrevne, hrevalnum, -, hrevval⟩ :=
      pseudo_rev_structure hp
    refine ⟨rev, core, bld, hv, hrevne, hrevalnum, ?_, ?_⟩
    · rw [pseudoRev_ok hp]
      exact congrArg Except.ok hrevval
    · refine ⟨_, source_eq path version rr, tagVar_of_pseudo hp, ?_⟩
      show commitVar version = rev
      unfold commitVar
      rw [hp]
      simp only [if_true]
      exact hrevval
  · intro hp
    refine ⟨_, source_eq path version rr, ?_, rfl, ?_⟩
    · show commitVar version = []
      unfold commitVar
      rw [hp]
      simp
    · intro hm hroot
      show tagVar path version rr.root = version
      unfold tagVar classifiedTag
      rw [hp]
      simp only [Bool.false_eq_true, if_false]
      rw [goCutSuffix_of_not_suffix hm]
      by_cases hvn : version = []
      · subst hvn
        simp
      · rw [if_pos (by simpa using hvn), hroot, goTrimStart_refl]
        simp [goTrimEnd_nil, goTrimStart_nil]

/-- Witness for C1's amended claim at the pseudo-version example. -/
theorem classification_pseudo_or_tag_witness :
    modpseudo.IsPseudoVersion "v0.0.0-20200101000000-abcdef123456".toList = true ∧
      ∃ rev core bld,
        "v0.0.0-20200101000000-abcdef123456".toList = core ++ '-' :: (rev ++ bld) ∧
          rev ≠ [] ∧ rev.all isAlnumCh = true ∧
          modpseudo.PseudoVersionRev "v0.0.0-20200101000000-abcdef123456".toList =
            .ok rev ∧
          ∃ s, source "example.org/mod".toList
              "v0.0.0-20200101000000-abcdef123456".toList
              ⟨"git".toList, "https://example.org/mod".toList,
                "example.org/mod".toList⟩ = .ok s ∧
            s.tag = [] ∧ s.commit = rev :=
  ⟨by decide,
    (classification_pseudo_or_tag "example.org/mod".toList
      "v0.0.0-20200101000000-abcdef123456".toList
      ⟨"git".toList, "https://example.org/mod".toList, "example.org/mod".toList⟩).1
      (by decide)⟩

/-- C9 counterexample: at the version string `+incompatible` (non-empty,
non-pseudo) the emitted descriptor has both tag and commit empty, so exactly
one of them is populated fails. -/
theorem incompatible_marker_neither_populated :
    incompatibleMarker ≠ [] ∧
      source "example.org/mod".toList incompatibleMarker
          ⟨"git".toList, "https://example.org/mod".toList, "example.org/mod".toList⟩ =
        .ok ⟨"git".toList, "https://example.org/mod".toList, [], [],
          "vendor/example.org/mod".toList, false, false, false⟩ :=
  ⟨by decide, rfl⟩

/-- C9 (amended): every successful resolution populates at most one of
tag/commit: a pseudo-version yields an empty tag and a non-empty commit, a
non-pseudo version yields an empty commit and — unless the version string is
exactly `+incompatible`, which empties both — a non-empty tag; and membership
in the sorted final output agrees with membership in the collected results,
so the invariant carries to the output list. -/
theorem tag_commit_exclusive (path version : List Char) (rr : RepoRoot) (s : Source)
    (h : source path version rr = .ok s) (hv : version ≠ []) :
    (¬ (s.tag ≠ [] ∧ s.commit ≠ [])) ∧
    (modpseudo.IsPseudoVersion version = true → s.tag = [] ∧ s.commit ≠ []) ∧
    (modpseudo.IsPseudoVersion version = false →
      s.commit = [] ∧ (version ≠ incompatibleMarker → s.tag ≠ [])) ∧
    (∀ l : List Source, s ∈ sortByDest l ↔ s ∈ l) := by
  rw [source_eq] at h
  injection h with h1
  subst h1
  by_cases hp : modpseudo.IsPseudoVersion version = true
  · obtain ⟨core, rev, bld, -, -, hrevne, -, -, hrevval⟩ := pseudo_rev_structure hp
    have hcommit : commitVar version = rev := by
      unfold commitVar
      rw [hp]
      simp only [if_true]
      exact hrevval
    refine ⟨?_, fun _ => ⟨tagVar_of_pseudo hp, ?_⟩, fun hq => absurd hp (by simp [hq]),
      fun l => (sortByDest_perm l).mem_iff⟩
    · rintro ⟨htag, -⟩
      exact htag (tagVar_of_pseudo hp)
    · show commitVar version ≠ []
      rw [hcommit]
      exact hrevne
  · rw [Bool.not_eq_true] at hp
    have hcommit : commitVar version = [] := by
      unfold commitVar
      rw [hp]
      simp
    refine ⟨?_, fun hq => absurd hq (by simp [hp]), fun _ => ⟨hcommit, ?_⟩,
      fun l => (sortByDest_perm l).mem_iff⟩
    · rintro ⟨-, hcom⟩
      exact hcom hcommit
    · intro hvm
      have ht1 : (goCutSuffix version incompatibleMarker).1 ≠ [] := by
        by_cases he : goEndsWith version incompatibleMarker = true
        · intro hnil
          have hdec := @goCutSuffix_decomp version incompatibleMarker
            (by rw [goCutSuffix_snd]; exact he)
          rw [hnil] at hdec
          exact hvm (by simpa using hdec)
        · rw [Bool.not_eq_true] at he
          rw [goCutSuffix_of_not_suffix he]
          exact hv
      exact tagVar_ne_nil hp ht1

/-- Witness for C9's amended claim at the pseudo-version example. -/
theorem tag_commit_exclusive_witness :
    (¬ (Source.tag ⟨"git".toList, "https://example.org/mod".toList, [],
          "abcdef123456".toList, "vendor/example.org/mod".toList,
          false, false, false⟩ ≠ [] ∧
        Source.commit ⟨"git".toList, "https://example.org/mod".toList, [],
          "abcdef123456".toList, "vendor/example.org/mod".toList,
          false, false, false⟩ ≠ [])) ∧
      (Source.tag ⟨"git".toList, "https://example.org/mod".toList, [],
          "abcdef123456".toList, "vendor/example.org/mod".toList,
          false, false, false⟩ = [] ∧
        Source.commit ⟨"git".toList, "https://example.org/mod".toList, [],
          "abcdef123456".toList, "vendor/example.org/mod".toList,
          false, false, false⟩ ≠ []) :=
  ⟨(tag_commit_exclusive "example.org/mod".toList
      "v0.0.0-20200101000000-abcdef123456".toList
      ⟨"git".toList, "https://example.org/mod".toList, "example.org/mod".toList⟩
      _ (by rfl) (by decide)).1,
    (tag_commit_exclusive "example.org/mod".toList
      "v0.0.0-20200101000000-abcdef123456".toList
      ⟨"git".toList, "https://example.org/mod".toList, "example.org/mod".toList⟩
      _ (by rfl) (by decide)).2.1 (by decide)⟩

end Gopakgen
